import Mathlib

/-!
Verification of the retrieval engine of smart-doc-qa-rag against its
natural-language specification.

The Python sources are shallowly embedded:
* text is modelled as `List Char` (Python `str` indexed by code point);
* `EmbeddingService.chunk_text` (backend/services/embedding_service.py,
  lines 47-74) is modelled by `chunkText`, with the while-loop expressed as a
  fuel-indexed recursion `auxChunk`; a run of the Python loop terminates with
  a given result iff `auxChunk` returns `some` of that result for some fuel,
  and the loop runs forever iff `auxChunk` returns `none` for every fuel;
* Python slicing / indexing / `str.strip()` are modelled by `pySlice`,
  `pyCharAt` and `pyStrip` with CPython's clamping and negative-index rules;
* the FastAPI router state (backend/routers/qa_router.py) is modelled as an
  explicit state record with upload / query / clear transition functions;
* the FAISS vector index is external library code, so its build/search
  semantics are modelled from the specification (see `buildIndex`,
  `searchEntries`).
-/

namespace SmartDocQA

/-- Characters removed by Python's `str.strip()` (the ASCII whitespace set
used by CPython for `str`). -/
def pyIsSpace (c : Char) : Bool :=
  c = ' ' || c = '\t' || c = '\n' || c = '\r' || c = '\x0b' || c = '\x0c'

/-- The sentence/paragraph boundary characters of `chunk_text` line 62:
the Python membership test `text[end - i - 1] in '.!?\n'`. -/
def isBoundaryChar (c : Char) : Bool :=
  c = '.' || c = '!' || c = '?' || c = '\n'

/-- Python single-character indexing `t[i]`: a negative index counts from the
end of the string.  An index out of range raises `IndexError` in Python; that
branch is provably never executed by the embedded code (the scan in
`endFor` only reads indices strictly between 0 and `len t`whenever the scan
runs at all on states reachable from start 0), so it is given a harmless
default value here. -/
def pyCharAt (t : List Char) (i : Int) : Char :=
  if 0 ≤ i ∧ i < (t.length : Int) then t.getD i.toNat ' '
  else if -(t.length : Int) ≤ i ∧ i < 0 then t.getD ((t.length : Int) + i).toNat ' '
  else ' '

/-- Python slicing `t[a:b]` for integer bounds, with CPython's rules:
negative bounds count from the end (clamped below at 0), positive bounds are
clamped above at `len t`, and an empty slice results when the normalized
lower bound is not below the upper one. -/
def pySlice (t : List Char) (a b : Int) : List Char :=
  (t.drop (if a < 0 then ((t.length : Int) + a).toNat else min a.toNat t.length)).take
    ((if b < 0 then ((t.length : Int) + b).toNat else min b.toNat t.length) -
      (if a < 0 then ((t.length : Int) + a).toNat else min a.toNat t.length))

/-- Python `str.strip()`: remove whitespace from both ends. -/
def pyStrip (l : List Char) : List Char :=
  ((l.dropWhile pyIsSpace).reverse.dropWhile pyIsSpace).reverse

/-- The backward boundary search of `chunk_text` lines 61-64:
`for i in range(...): if text[end - i - 1] in '.!?\n': end = end - i; break`.
`snapScan t tentEnd lo r` returns the first offset `i` among
`lo, lo+1, ..., lo+r-1` whose scanned character is a boundary character. -/
def snapScan (t : List Char) (tentEnd : Int) : Nat → Nat → Option Nat
  | _, 0 => none
  | lo, r + 1 =>
    if isBoundaryChar (pyCharAt t (tentEnd - lo - 1)) then some lo
    else snapScan t tentEnd (lo + 1) r

/-- `min(100, chunk_size // 2)`, the width of the boundary scan (line 61). -/
def scanWidth (chunkSize : Nat) : Nat := min 100 (chunkSize / 2)

/-- The final end of the window that starts at `s` (`chunk_text` lines 56-64):
tentative end `start + chunk_size`; when the tentative end lies strictly
inside the text, it is moved back to just after the nearest boundary
character among the last `scanWidth` scanned positions, if there is one. -/
def endFor (t : List Char) (chunkSize : Nat) (s : Int) : Int :=
  let tentEnd : Int := s + chunkSize
  if tentEnd < (t.length : Int) then
    match snapScan t tentEnd 0 (scanWidth chunkSize) with
    | some i => tentEnd - i
    | none => tentEnd
  else tentEnd

/-- The `chunk_text` while-loop (lines 55-72), recorded as the list of
`(start, end)` windows of the chunks that are appended (a window is appended
exactly when its slice is non-empty after stripping).  `fuel` bounds the
number of loop iterations: the Python loop terminates from state `s` with a
given window list iff this function returns `some` of it for some fuel. -/
def auxChunk (t : List Char) (chunkSize overlap : Nat) : Nat → Int → Option (List (Int × Int))
  | 0, s => if (t.length : Int) ≤ s then some [] else none
  | fuel + 1, s =>
    if (t.length : Int) ≤ s then some []
    else
      (auxChunk t chunkSize overlap fuel (endFor t chunkSize s - overlap)).map
        fun rest =>
          if pyStrip (pySlice t s (endFor t chunkSize s)) = [] then rest
          else (s, endFor t chunkSize s) :: rest

/-- `EmbeddingService.chunk_text` (lines 47-74).  The one-chunk fast path
(line 49-50) returns the text itself, unstripped; otherwise the loop windows
are sliced, stripped, and collected. -/
def chunkText (fuel : Nat) (t : List Char) (chunkSize overlap : Nat) :
    Option (List (List Char)) :=
  if t.length ≤ chunkSize then some [t]
  else (auxChunk t chunkSize overlap fuel 0).map
    (List.map fun w => pyStrip (pySlice t w.1 w.2))

/-- Abbreviation for the scanned predicate of `snapScan`: offset `i` hits a
boundary character. -/
def hitsBoundary (t : List Char) (tentEnd : Int) (i : Nat) : Prop :=
  isBoundaryChar (pyCharAt t (tentEnd - i - 1))

instance (t : List Char) (tentEnd : Int) (i : Nat) :
    Decidable (hitsBoundary t tentEnd i) := by
  unfold hitsBoundary; infer_instance

theorem snapScan_some {t : List Char} {tentEnd : Int} :
    ∀ {r lo j : Nat}, snapScan t tentEnd lo r = some j →
      hitsBoundary t tentEnd j ∧ lo ≤ j ∧ j < lo + r ∧
        ∀ k, lo ≤ k → k < j → ¬ hitsBoundary t tentEnd k := by
  intro r
  induction r with
  | zero => intro lo j h; exact absurd h (by simp [snapScan])
  | succ n ih =>
    intro lo j h
    rw [snapScan] at h
    by_cases hb : isBoundaryChar (pyCharAt t (tentEnd - lo - 1))
    · rw [if_pos hb] at h
      obtain rfl : lo = j := by simpa using h
      exact ⟨hb, le_refl _, by omega, fun k hk hk2 => by omega⟩
    · rw [if_neg hb] at h
      obtain ⟨h1, h2, h3, h4⟩ := ih h
      refine ⟨h1, by omega, by omega, fun k hk hk2 => ?_⟩
      rcases Nat.eq_or_lt_of_le hk with rfl | hk'
      · exact hb
      · exact h4 k hk' hk2

theorem snapScan_none {t : List Char} {tentEnd : Int} :
    ∀ {r lo : Nat}, snapScan t tentEnd lo r = none →
      ∀ k, lo ≤ k → k < lo + r → ¬ hitsBoundary t tentEnd k := by
  intro r
  induction r with
  | zero => intro lo _ k hk hk2; omega
  | succ n ih =>
    intro lo h k hk hk2
    rw [snapScan] at h
    by_cases hb : isBoundaryChar (pyCharAt t (tentEnd - lo - 1))
    · rw [if_pos hb] at h; exact absurd h (by simp)
    · rw [if_neg hb] at h
      rcases Nat.eq_or_lt_of_le hk with rfl | hk'
      · exact hb
      · exact ih h k hk' (by omega)

/-- `C5` supporting fact: the scan is exactly a search for the least hitting
offset. -/
theorem snapScan_eq_find {t : List Char} {tentEnd : Int} {m : Nat}
    (h : ∃ i, i < m ∧ hitsBoundary t tentEnd i) :
    snapScan t tentEnd 0 m = some (Nat.find h) := by
  rcases hs : snapScan t tentEnd 0 m with _ | j
  · obtain ⟨i, hi, hbi⟩ := h
    exact absurd hbi (snapScan_none hs i (Nat.zero_le _) (by omega))
  · obtain ⟨h1, _, h3, h4⟩ := snapScan_some hs
    congr 1
    have hj : j < m ∧ hitsBoundary t tentEnd j := ⟨by omega, h1⟩
    have hle : Nat.find h ≤ j := Nat.find_le hj
    rcases Nat.eq_or_lt_of_le hle with heq | hlt
    · omega
    · exact absurd (Nat.find_spec h).2 (h4 _ (Nat.zero_le _) hlt)

/-- `C5` supporting fact: when no offset hits, the scan finds nothing. -/
theorem snapScan_eq_none {t : List Char} {tentEnd : Int} {m : Nat}
    (h : ¬ ∃ i, i < m ∧ hitsBoundary t tentEnd i) :
    snapScan t tentEnd 0 m = none := by
  rcases hs : snapScan t tentEnd 0 m with _ | j
  · rfl
  · obtain ⟨h1, _, h3, _⟩ := snapScan_some hs
    exact absurd ⟨j, by omega, h1⟩ h

/-- C5: if the tentative window end `start + chunkSize` lies strictly inside
the text, then: when some offset `i < min 100 (chunkSize/2)` scans a boundary
character (i.e. a boundary character occurs within the last
`min 100 (chunkSize/2)` positions before the tentative end), the window is
shortened to end immediately after the nearest such boundary character (the
one with the least offset, so the window's final end is that boundary
position plus one); otherwise the window ends at the tentative end. -/
theorem window_end_boundary_snap (t : List Char) (chunkSize : Nat) (s : Int)
    (hlt : s + chunkSize < (t.length : Int)) :
    (∀ h : ∃ i, i < scanWidth chunkSize ∧ hitsBoundary t (s + chunkSize) i,
      endFor t chunkSize s = (s + chunkSize - Nat.find h - 1) + 1) ∧
    ((¬ ∃ i, i < scanWidth chunkSize ∧ hitsBoundary t (s + chunkSize) i) →
      endFor t chunkSize s = s + chunkSize) := by
  constructor
  · intro h
    rw [endFor]
    simp only [if_pos hlt, snapScan_eq_find h]
    omega
  · intro h
    rw [endFor]
    simp only [if_pos hlt, snapScan_eq_none h]

/-- C5 witness: on a concrete text with tentative end 10, the nearest
boundary is the dot scanned at offset 2 (position 7), and the window is cut
to end at position 8, immediately after it. -/
theorem window_end_boundary_snap_witness :
    ((0 : Int) + 10 < ("abcdefg.ijKLMN".toList.length : Int)) ∧
      endFor "abcdefg.ijKLMN".toList 10 0 = 8 := by
  refine ⟨by decide, ?_⟩
  have h : ∃ i, i < scanWidth 10 ∧ hitsBoundary "abcdefg.ijKLMN".toList ((0 : Int) + 10) i :=
    ⟨2, by decide, by decide⟩
  have hmain := (window_end_boundary_snap "abcdefg.ijKLMN".toList 10 0 (by decide)).1 h
  have hfind : Nat.find h = 2 := by
    rw [Nat.find_eq_iff]
    exact ⟨⟨by decide, by decide⟩, by decide⟩
  rw [hmain, hfind]
  norm_num

/-- C4: a text no longer than the chunk size is returned as the single,
unmodified chunk. -/
theorem chunk_short_text (fuel : Nat) (t : List Char) (chunkSize overlap : Nat)
    (h : t.length ≤ chunkSize) :
    chunkText fuel t chunkSize overlap = some [t] := by
  rw [chunkText, if_pos h]

/-- C4 witness: a concrete short text is returned unchanged. -/
theorem chunk_short_text_witness :
    "hello".toList.length ≤ 10 ∧ chunkText 0 "hello".toList 10 3 = some ["hello".toList] :=
  ⟨by decide, chunk_short_text 0 "hello".toList 10 3 (by decide)⟩

/-- The input on which `chunk_text` loops forever: with chunk size 10 and
overlap 9 the first window is snapped back to end 9 (the dot at index 8),
and the next start is 9 - 9 = 0 again. -/
def loopText : List Char := "aaaaaaaa.ab".toList

theorem auxChunk_loopText_none : ∀ fuel, auxChunk loopText 10 9 fuel 0 = none := by
  intro fuel
  induction fuel with
  | zero => decide
  | succ n ih =>
    have he : endFor loopText 10 0 = 9 := by decide
    have h9 : (9 : Int) - (9 : Nat) = 0 := by decide
    rw [auxChunk, if_neg (by decide)]
    simp only [he, h9, ih, Option.map_none']

/-- C3 refutation: `chunk_text` does not terminate on every input with
`overlap < chunkSize`.  On `"aaaaaaaa.ab"` with chunk size 10 and overlap 9
(so overlap < chunkSize), the loop state repeats forever: no amount of fuel
makes the embedded loop return. -/
theorem chunk_nontermination : ∀ fuel, chunkText fuel loopText 10 9 = none := by
  intro fuel
  rw [chunkText, if_neg (by decide), auxChunk_loopText_none]
  rfl

/-- Every window recorded by the loop has a slice that is non-empty after
stripping (the append at lines 66-68 is guarded by `if chunk:`). -/
theorem auxChunk_mem_nonempty {t : List Char} {cs ov : Nat} :
    ∀ {fuel : Nat} {s : Int} {ws : List (Int × Int)},
      auxChunk t cs ov fuel s = some ws →
      ∀ w ∈ ws, pyStrip (pySlice t w.1 w.2) ≠ [] := by
  intro fuel
  induction fuel with
  | zero =>
    intro s ws h w hw
    rw [auxChunk] at h
    split at h
    · obtain rfl : ([] : List (Int × Int)) = ws := by simpa using h
      simp at hw
    · exact absurd h (by simp)
  | succ n ih =>
    intro s ws h w hw
    rw [auxChunk] at h
    split at h
    · obtain rfl : ([] : List (Int × Int)) = ws := by simpa using h
      simp at hw
    · obtain ⟨rest, hrest, hmap⟩ := Option.map_eq_some'.mp h
      by_cases hstr : pyStrip (pySlice t s (endFor t cs s)) = []
      · rw [if_pos hstr] at hmap
        exact ih hrest w (hmap ▸ hw)
      · rw [if_neg hstr] at hmap
        rcases (by rw [← hmap] at hw; simpa using hw :
            w = (s, endFor t cs s) ∨ w ∈ rest) with rfl | hmem
        · exact hstr
        · exact ih hrest w hmem

/-- C10: the empty text (and more generally any whitespace-only text no
longer than the chunk size) is returned as a single untrimmed chunk — so a
blank passage can escape through the public interface — while on the
multi-chunk path (text longer than the chunk size) every emitted chunk is
non-empty after stripping. -/
theorem blank_chunk_edge_cases :
    (∀ fuel chunkSize overlap,
        chunkText fuel ([] : List Char) chunkSize overlap = some [[]]) ∧
    (∀ fuel (t : List Char) chunkSize overlap,
        (∀ c ∈ t, pyIsSpace c) → t.length ≤ chunkSize →
        chunkText fuel t chunkSize overlap = some [t]) ∧
    (∀ fuel (t : List Char) chunkSize overlap l,
        chunkSize < t.length → chunkText fuel t chunkSize overlap = some l →
        ∀ c ∈ l, c ≠ ([] : List Char)) := by
  refine ⟨fun fuel cs ov => chunk_short_text fuel [] cs ov (by simp),
    fun fuel t cs ov _ h => chunk_short_text fuel t cs ov h,
    fun fuel t cs ov l hlen h c hc => ?_⟩
  rw [chunkText, if_neg (by omega)] at h
  obtain ⟨ws, hws, hmap⟩ := Option.map_eq_some'.mp h
  rw [← hmap] at hc
  obtain ⟨w, hw, rfl⟩ := List.mem_map.mp hc
  exact auxChunk_mem_nonempty hws w hw

/-- C10 witness: `chunk("") = [""]`, a whitespace-only short text comes back
untrimmed, and on a concrete multi-chunk run every chunk is non-empty. -/
theorem blank_chunk_edge_cases_witness :
    chunkText 5 ([] : List Char) 10 2 = some [[]] ∧
    chunkText 5 "  ".toList 10 2 = some ["  ".toList] ∧
    (∀ c ∈ ["aaaaaaaaaa".toList, "aaaaaaa".toList], c ≠ ([] : List Char)) := by
  refine ⟨blank_chunk_edge_cases.1 5 10 2,
    blank_chunk_edge_cases.2.1 5 "  ".toList 10 2 (by decide) (by decide),
    blank_chunk_edge_cases.2.2 30 "aaaaaaaaaaaaaaa".toList 10 2
      ["aaaaaaaaaa".toList, "aaaaaaa".toList] (by decide) (by decide)⟩

theorem endFor_of_ge {t : List Char} {cs : Nat} {s : Int}
    (h : (t.length : Int) ≤ s + cs) : endFor t cs s = s + cs := by
  rw [endFor]
  exact if_neg (by omega)

theorem endFor_of_none {t : List Char} {cs : Nat} {s : Int}
    (h : s + cs < (t.length : Int))
    (hs : snapScan t (s + cs) 0 (scanWidth cs) = none) :
    endFor t cs s = s + cs := by
  rw [endFor]
  simp only [if_pos h, hs]

theorem endFor_of_some {t : List Char} {cs : Nat} {s : Int} {i : Nat}
    (h : s + cs < (t.length : Int))
    (hs : snapScan t (s + cs) 0 (scanWidth cs) = some i) :
    endFor t cs s = s + cs - i := by
  rw [endFor]
  simp only [if_pos h, hs]

theorem endFor_le (t : List Char) (cs : Nat) (s : Int) :
    endFor t cs s ≤ s + cs := by
  by_cases h : s + cs < (t.length : Int)
  · rcases hs : snapScan t (s + cs) 0 (scanWidth cs) with _ | i
    · rw [endFor_of_none h hs]
    · rw [endFor_of_some h hs]; omega
  · rw [endFor_of_ge (by omega)]

theorem endFor_ge (t : List Char) (cs : Nat) (s : Int) :
    s + cs - ((scanWidth cs - 1 : Nat) : Int) ≤ endFor t cs s := by
  by_cases h : s + cs < (t.length : Int)
  · rcases hs : snapScan t (s + cs) 0 (scanWidth cs) with _ | i
    · rw [endFor_of_none h hs]; omega
    · rw [endFor_of_some h hs]
      have hi : i < scanWidth cs := by
        have := (snapScan_some hs).2.2.1
        omega
      omega
  · rw [endFor_of_ge (by omega)]; omega

theorem hitsBoundary_congr {t : List Char} {a b : Int} {i k : Nat}
    (h : a - i - 1 = b - k - 1) : hitsBoundary t a i ↔ hitsBoundary t b k := by
  unfold hitsBoundary
  rw [h]

/-- Window ends never move backwards: if one loop iteration had final end
`endFor t cs p`, the next iteration (which starts at that end minus the
overlap) has a final end at least as large.  This is the key structural fact
behind the overlap bound of C6: the boundary that cut the previous window is
re-scanned by the next window before any earlier position. -/
theorem endFor_mono {t : List Char} {cs ov : Nat} (hov : ov < cs)
    (p s : Int) (hs : s = endFor t cs p - ov) :
    endFor t cs p ≤ endFor t cs s := by
  have hovZ : (ov : Int) < (cs : Int) := by exact_mod_cast hov
  by_cases htp : p + cs < (t.length : Int)
  case neg =>
    have he : endFor t cs p = p + cs := endFor_of_ge (by omega)
    have hts : (t.length : Int) ≤ s + cs := by omega
    rw [endFor_of_ge hts, he]
    omega
  case pos =>
    by_cases hts : s + cs < (t.length : Int)
    case neg =>
      have hrw : endFor t cs s = s + cs := endFor_of_ge (by omega)
      rw [hrw]
      have := endFor_le t cs p
      omega
    case pos =>
      rcases hsp : snapScan t (p + cs) 0 (scanWidth cs) with _ | i₀
      · -- previous window was not snapped: its end is the tentative end
        have he : endFor t cs p = p + cs := endFor_of_none htp hsp
        rcases hss : snapScan t (s + cs) 0 (scanWidth cs) with _ | j
        · rw [endFor_of_none hts hss, he]; omega
        · obtain ⟨hhit, -, hjm, -⟩ := snapScan_some hss
          rw [endFor_of_some hts hss, he]
          by_contra hcon
          -- then the hit position lies strictly below the previous tentative
          -- end, inside the region the previous scan cleared
          have hjlow : (cs : Int) - ov ≤ (j : Int) := by omega
          have hk : ∃ k : Nat, (k : Int) = (j : Int) - ((cs : Int) - ov) :=
            ⟨j - (cs - ov), by omega⟩
          obtain ⟨k, hkv⟩ := hk
          have htrans : hitsBoundary t (s + cs) j ↔ hitsBoundary t (p + cs) k :=
            hitsBoundary_congr (by omega)
          exact snapScan_none hsp k (Nat.zero_le _)
            (by omega) (htrans.mp hhit)
      · -- previous window snapped at offset i₀
        obtain ⟨hhit₀, -, hi₀m, hmin₀⟩ := snapScan_some hsp
        have he : endFor t cs p = p + cs - i₀ := endFor_of_some htp hsp
        by_cases him : (cs - ov : Nat) < scanWidth cs
        case neg =>
          have := endFor_ge t cs s
          have hcsov : ((cs - ov : Nat) : Int) = (cs : Int) - ov := by omega
          omega
        case pos =>
          have hstar : hitsBoundary t (s + cs) (cs - ov) ↔
              hitsBoundary t (p + cs) i₀ :=
            hitsBoundary_congr (by
              have : ((cs - ov : Nat) : Int) = (cs : Int) - ov := by omega
              omega)
          rcases hss : snapScan t (s + cs) 0 (scanWidth cs) with _ | j
          · exact absurd (hstar.mpr hhit₀)
              (snapScan_none hss (cs - ov) (Nat.zero_le _) (by omega))
          · obtain ⟨-, -, -, hminj⟩ := snapScan_some hss
            have hjle : j ≤ cs - ov := by
              by_contra hcon
              exact hminj (cs - ov) (Nat.zero_le _) (by omega) (hstar.mpr hhit₀)
            rw [endFor_of_some hts hss, he]
            have : ((cs - ov : Nat) : Int) = (cs : Int) - ov := by omega
            omega

/-- If an iteration's next start is negative (possible when the overlap
exceeds chunkSize minus the scan width), the next window is cut at exactly
the same boundary, so its end equals the previous end and the loop state
repeats. -/
theorem endFor_fix {t : List Char} {cs ov : Nat}
    (hov : ov < cs) (p : Int) (hp : 0 ≤ p) (s : Int)
    (hs : s = endFor t cs p - ov) (hneg : s < 0) :
    endFor t cs s = endFor t cs p := by
  have hovZ : (ov : Int) < (cs : Int) := by exact_mod_cast hov
  have hwid : (scanWidth cs : Int) ≤ (cs : Int) := by
    have h1 : scanWidth cs ≤ cs / 2 := Nat.min_le_right _ _
    have h2 : cs / 2 ≤ cs := Nat.div_le_self _ _
    exact_mod_cast le_trans h1 h2
  by_cases htp : p + cs < (t.length : Int)
  case neg =>
    have h0 : endFor t cs p = p + cs := endFor_of_ge (by omega)
    omega
  case pos =>
    rcases hsp : snapScan t (p + cs) 0 (scanWidth cs) with _ | i₀
    · have := endFor_of_none htp hsp
      omega
    · obtain ⟨hhit₀, -, hi₀m, hmin₀⟩ := snapScan_some hsp
      have he : endFor t cs p = p + cs - i₀ := endFor_of_some htp hsp
      -- abbreviate: e is the previous end
      have hi₀m' : i₀ < scanWidth cs := by omega
      have helb : (cs : Int) - (scanWidth cs) + 1 ≤ endFor t cs p := by
        have := endFor_ge t cs p
        have hw1 : (1 : Int) ≤ scanWidth cs ∨ (scanWidth cs : Int) = 0 := by omega
        rcases hw1 with hw1 | hw1
        · have : ((scanWidth cs - 1 : Nat) : Int) = (scanWidth cs : Int) - 1 := by
            omega
          omega
        · omega
      have heub : endFor t cs p < (ov : Int) := by omega
      -- the distance from the new tentative end back to the old end
      have hstar_lt : (cs - ov : Nat) < scanWidth cs := by
        have : ((cs - ov : Nat) : Int) = (cs : Int) - ov := by omega
        omega
      have hts : s + cs < (t.length : Int) := by omega
      have hstar : hitsBoundary t (s + cs) (cs - ov) ↔
          hitsBoundary t (p + cs) i₀ :=
        hitsBoundary_congr (by
          have : ((cs - ov : Nat) : Int) = (cs : Int) - ov := by omega
          omega)
      -- the old snap offset is at least the new scan distance
      have hi₀ge : (cs - ov : Nat) ≤ i₀ := by
        have : ((cs - ov : Nat) : Int) = (cs : Int) - ov := by omega
        omega
      have hbelow : ∀ j : Nat, j < cs - ov → ¬ hitsBoundary t (s + cs) j := by
        intro j hj
        have hk : ∃ k : Nat, (k : Int) = (i₀ : Int) - ((cs - ov : Nat) : Int) + j :=
          ⟨i₀ - (cs - ov) + j, by omega⟩
        obtain ⟨k, hkv⟩ := hk
        have htrans : hitsBoundary t (s + cs) j ↔ hitsBoundary t (p + cs) k :=
          hitsBoundary_congr (by omega)
        intro hcon
        exact hmin₀ k (Nat.zero_le _) (by omega) (htrans.mp hcon)
      rcases hss : snapScan t (s + cs) 0 (scanWidth cs) with _ | j
      · exact absurd (hstar.mpr hhit₀)
          (snapScan_none hss (cs - ov) (Nat.zero_le _) (by omega))
      · obtain ⟨hhitj, -, -, hminj⟩ := snapScan_some hss
        have hjle : j ≤ cs - ov := by
          by_contra hcon
          exact hminj (cs - ov) (Nat.zero_le _) (by omega) (hstar.mpr hhit₀)
        have hjge : cs - ov ≤ j := by
          by_contra hcon
          exact hbelow j (by omega) hhitj
        have hjeq : j = cs - ov := le_antisymm hjle hjge
        rw [endFor_of_some hts hss, he, hjeq]
        have : ((cs - ov : Nat) : Int) = (cs : Int) - ov := by omega
        omega

/-- A slice that strips to nothing consists of whitespace only. -/
theorem pyStrip_eq_nil_all_space {l : List Char} (h : pyStrip l = []) :
    ∀ c ∈ l, pyIsSpace c := by
  unfold pyStrip at h
  have h1 : (l.dropWhile pyIsSpace).reverse.dropWhile pyIsSpace = [] := by
    simpa using h
  have h2 := List.dropWhile_eq_nil_iff.mp h1
  intro c hc
  have hsplit : c ∈ l.takeWhile pyIsSpace ++ l.dropWhile pyIsSpace := by
    rw [List.takeWhile_append_dropWhile]
    exact hc
  rcases List.mem_append.mp hsplit with hhd | htl
  · exact List.mem_takeWhile_imp hhd
  · exact h2 c (List.mem_reverse.mpr htl)

/-- Every character position inside the (in-range) window `[s, e)` has its
character in the window's Python slice. -/
theorem mem_pySlice {t : List Char} {s e : Int} {p : Nat}
    (hs0 : 0 ≤ s) (hsp : s ≤ (p : Int)) (hpe : (p : Int) < e)
    (hp : p < t.length) :
    t.getD p ' ' ∈ pySlice t s e := by
  have hlo : (if s < (0 : Int) then ((t.length : Int) + s).toNat
      else min s.toNat t.length) = s.toNat := by
    rw [if_neg (by omega)]
    omega
  have hhi : (if e < (0 : Int) then ((t.length : Int) + e).toNat
      else min e.toNat t.length) = min e.toNat t.length := if_neg (by omega)
  rw [pySlice, hlo, hhi]
  have hidx : p - s.toNat <
      ((t.drop s.toNat).take (min e.toNat t.length - s.toNat)).length := by
    simp only [List.length_take, List.length_drop]
    omega
  have hval : ((t.drop s.toNat).take (min e.toNat t.length - s.toNat)).getD
      (p - s.toNat) ' ' = t.getD p ' ' := by
    rw [List.getD_eq_getElem _ ' ' hidx, List.getD_eq_getElem t ' ' hp]
    rw [List.getElem_take, List.getElem_drop]
    congr 1
    omega
  have hmem := List.getElem_mem hidx
  rw [← List.getD_eq_getElem _ ' ' hidx] at hmem
  rw [hval] at hmem
  exact hmem

/-- Once the next start is negative, the loop repeats the same state forever:
no fuel suffices. -/
theorem auxChunk_neg_none {t : List Char} {cs ov : Nat}
    (hov : ov < cs)
    (p : Int) (hp : 0 ≤ p) (s : Int) (hs : s = endFor t cs p - ov)
    (hneg : s < 0) :
    ∀ fuel, auxChunk t cs ov fuel s = none := by
  have hfix : endFor t cs s - ov = s := by
    have := endFor_fix hov p hp s hs hneg
    omega
  intro fuel
  induction fuel with
  | zero =>
    rw [auxChunk]
    rw [if_neg (by omega)]
  | succ n ih =>
    rw [auxChunk, if_neg (by omega), hfix, ih]
    rfl

/-- With `overlap ≥ chunkSize` the start never increases, so from a
non-positive start the loop never terminates. -/
theorem auxChunk_ov_ge_none {t : List Char} {cs ov : Nat}
    (_hlen : (0 : Int) < t.length) (hov : cs ≤ ov) :
    ∀ fuel (s : Int), s ≤ 0 → auxChunk t cs ov fuel s = none := by
  intro fuel
  induction fuel with
  | zero =>
    intro s hz
    rw [auxChunk, if_neg (by omega)]
  | succ n ih =>
    intro s hz
    have hnext : endFor t cs s - ov ≤ 0 := by
      have h1 := endFor_le t cs s
      have h2 : (cs : Int) ≤ (ov : Int) := by exact_mod_cast hov
      omega
    rw [auxChunk, if_neg (by omega), ih _ hnext]
    rfl

/-- If a run starting at `s = endFor t cs p - ov` produces a non-empty window
list, its first window starts no earlier than `endFor t cs p - ov`: skipped
windows in between can only move the start forward (by `endFor_mono`). -/
theorem auxChunk_head_ge {t : List Char} {cs ov : Nat} (hov : ov < cs) :
    ∀ (fuel : Nat) (p s : Int) (ws : List (Int × Int)) (w : Int × Int)
      (rest : List (Int × Int)),
      s = endFor t cs p - ov →
      auxChunk t cs ov fuel s = some ws → ws = w :: rest →
      endFor t cs p - ov ≤ w.1 := by
  intro fuel
  induction fuel with
  | zero =>
    intro p s ws w rest hs h hw
    rw [auxChunk] at h
    split at h
    · obtain rfl : ([] : List (Int × Int)) = ws := by simpa using h
      simp at hw
    · exact absurd h (by simp)
  | succ n ih =>
    intro p s ws w rest hs h hw
    rw [auxChunk] at h
    split at h
    · obtain rfl : ([] : List (Int × Int)) = ws := by simpa using h
      simp at hw
    · obtain ⟨r0, hr0, hmap⟩ := Option.map_eq_some'.mp h
      have hmono := endFor_mono hov p s hs
      by_cases hstr : pyStrip (pySlice t s (endFor t cs s)) = []
      · rw [if_pos hstr] at hmap
        subst hmap
        have := ih s (endFor t cs s - ov) r0 w rest rfl hr0 hw
        omega
      · rw [if_neg hstr] at hmap
        have hw1 : w = (s, endFor t cs s) := by
          have := hmap.trans hw
          exact (List.cons.injEq _ _ _ _).mp this |>.1 |>.symm
        rw [hw1]
        omega

/-- Consecutive recorded windows satisfy the chain condition: the next window
starts no earlier than the previous window's end minus the overlap. -/
theorem auxChunk_chain {t : List Char} {cs ov : Nat} (hov : ov < cs) :
    ∀ (fuel : Nat) (s : Int) (ws : List (Int × Int)),
      auxChunk t cs ov fuel s = some ws →
      List.Chain' (fun w₁ w₂ => w₁.2 - (ov : Int) ≤ w₂.1) ws := by
  intro fuel
  induction fuel with
  | zero =>
    intro s ws h
    rw [auxChunk] at h
    split at h
    · obtain rfl : ([] : List (Int × Int)) = ws := by simpa using h
      exact List.chain'_nil
    · exact absurd h (by simp)
  | succ n ih =>
    intro s ws h
    rw [auxChunk] at h
    split at h
    · obtain rfl : ([] : List (Int × Int)) = ws := by simpa using h
      exact List.chain'_nil
    · obtain ⟨r0, hr0, hmap⟩ := Option.map_eq_some'.mp h
      by_cases hstr : pyStrip (pySlice t s (endFor t cs s)) = []
      · rw [if_pos hstr] at hmap
        exact hmap ▸ ih _ r0 hr0
      · rw [if_neg hstr] at hmap
        rw [← hmap]
        refine List.chain'_cons'.mpr ⟨?_, ih _ r0 hr0⟩
        intro w' hw'
        rcases r0 with _ | ⟨w0, tail⟩
        · simp at hw'
        · have hw0 : w' = w0 := by simpa using hw'.symm
          have := auxChunk_head_ge hov n s (endFor t cs s - ov) (w0 :: tail)
            w0 tail rfl hr0 rfl
          rw [hw0]
          exact this

/-- Every non-whitespace character of the text at or after the current start
lies inside one of the recorded windows (whitespace-only windows are the
only ones skipped, and the next start never jumps past the current end). -/
theorem auxChunk_cover {t : List Char} {cs ov : Nat}
    (hov : ov < cs) :
    ∀ (fuel : Nat) (s : Int) (ws : List (Int × Int)),
      0 ≤ s →
      auxChunk t cs ov fuel s = some ws →
      ∀ p : Nat, s ≤ (p : Int) → p < t.length → ¬ pyIsSpace (t.getD p ' ') →
        ∃ w ∈ ws, w.1 ≤ (p : Int) ∧ (p : Int) < w.2 := by
  intro fuel
  induction fuel with
  | zero =>
    intro s ws hs0 h p hsp hp _
    rw [auxChunk] at h
    split at h
    case isTrue hc => omega
    case isFalse hc => exact absurd h (by simp)
  | succ n ih =>
    intro s ws hs0 h p hsp hp hns
    rw [auxChunk] at h
    split at h
    case isTrue hc => omega
    case isFalse hc =>
      obtain ⟨r0, hr0, hmap⟩ := Option.map_eq_some'.mp h
      by_cases hpe : (p : Int) < endFor t cs s
      · -- the character lies in the current window
        by_cases hstr : pyStrip (pySlice t s (endFor t cs s)) = []
        · -- skipped windows are whitespace-only: contradiction
          exact absurd
            (pyStrip_eq_nil_all_space hstr _ (mem_pySlice hs0 hsp hpe hp)) hns
        · rw [if_neg hstr] at hmap
          exact ⟨(s, endFor t cs s), by rw [← hmap]; exact List.mem_cons_self _ _,
            hsp, hpe⟩
      · -- the character lies at or after the current end: recurse
        have hnextpos : 0 ≤ endFor t cs s - ov := by
          by_contra hneg
          have := auxChunk_neg_none hov s hs0 (endFor t cs s - ov) rfl
            (by omega) n
          rw [this] at hr0
          exact absurd hr0 (by simp)
        obtain ⟨w, hwmem, hw⟩ := ih (endFor t cs s - ov) r0 hnextpos hr0 p
          (by omega) hp hns
        refine ⟨w, ?_, hw⟩
        by_cases hstr : pyStrip (pySlice t s (endFor t cs s)) = []
        · rw [if_pos hstr] at hmap
          exact hmap ▸ hwmem
        · rw [if_neg hstr] at hmap
          rw [← hmap]
          exact List.mem_cons_of_mem _ hwmem

/-- C6 (amended): for every chunking that takes the multi-chunk path and
produces at least two passages, the passages arise from the loop's window
list, in which each pair of consecutive windows overlaps in a region of the
source text whose length is at most the configured overlap (and, being a
region, at least 0), and every non-whitespace character of the original text
is covered by some recorded window — i.e. the passages reconstruct the
original text's content up to whitespace trimmed from passage edges or
dropped with whitespace-only windows. -/
theorem chunk_overlap_bound_and_cover (fuel : Nat) (t : List Char)
    (chunkSize overlap : Nat) (cl : List (List Char))
    (hres : chunkText fuel t chunkSize overlap = some cl)
    (hmulti : 2 ≤ cl.length) :
    ∃ ws, auxChunk t chunkSize overlap fuel 0 = some ws ∧
      cl = ws.map (fun w => pyStrip (pySlice t w.1 w.2)) ∧
      List.Chain' (fun w₁ w₂ =>
        min w₁.2 w₂.2 - max w₁.1 w₂.1 ≤ (overlap : Int)) ws ∧
      (∀ p : Nat, p < t.length → ¬ pyIsSpace (t.getD p ' ') →
        ∃ w ∈ ws, w.1 ≤ (p : Int) ∧ (p : Int) < w.2) := by
  by_cases hlen : t.length ≤ chunkSize
  · rw [chunkText, if_pos hlen] at hres
    obtain rfl : [t] = cl := by simpa using hres
    simp at hmulti
  · rw [chunkText, if_neg hlen] at hres
    obtain ⟨ws, hws, hmap⟩ := Option.map_eq_some'.mp hres
    have hlenZ : (chunkSize : Int) < (t.length : Int) := by
      have : chunkSize < t.length := by omega
      exact_mod_cast this
    have hov : overlap < chunkSize := by
      by_contra hcon
      have hdiv : auxChunk t chunkSize overlap fuel 0 = none :=
        auxChunk_ov_ge_none (by omega) (by omega) fuel 0 (le_refl 0)
      rw [hdiv] at hws
      exact absurd hws (by simp)
    refine ⟨ws, hws, hmap.symm, ?_, ?_⟩
    · exact (auxChunk_chain hov fuel 0 ws hws).imp (fun h => by omega)
    · intro p hp hns
      exact auxChunk_cover hov fuel 0 ws (le_refl 0) hws p
        (by omega) hp hns

/-- C6 witness: a concrete two-chunk run, with the overlap bound and the
cover property instantiated. -/
theorem chunk_overlap_bound_and_cover_witness :
    ∃ ws, auxChunk "aaaaaaaaaaaaaaa".toList 10 2 30 0 = some ws ∧
      ["aaaaaaaaaa".toList, "aaaaaaa".toList] =
        ws.map (fun w => pyStrip (pySlice "aaaaaaaaaaaaaaa".toList w.1 w.2)) ∧
      List.Chain' (fun w₁ w₂ =>
        min w₁.2 w₂.2 - max w₁.1 w₂.1 ≤ ((2 : Nat) : Int)) ws ∧
      (∀ p : Nat, p < "aaaaaaaaaaaaaaa".toList.length →
        ¬ pyIsSpace ("aaaaaaaaaaaaaaa".toList.getD p ' ') →
        ∃ w ∈ ws, w.1 ≤ (p : Int) ∧ (p : Int) < w.2) :=
  chunk_overlap_bound_and_cover 30 "aaaaaaaaaaaaaaa".toList 10 2
    ["aaaaaaaaaa".toList, "aaaaaaa".toList] (by decide) (by decide)

/-- C6 counterexample to the claim as stated (exact reconstruction): on
30 characters "aaaaaaaaaa" ++ ten spaces ++ "bbbbbbbbbb" with chunk size 10
and overlap 2, the run succeeds with more than one passage, yet no passage
contains a space while the original text does — so no concatenation of the
passages (with or without removing overlapped regions) can reconstruct the
original text. -/
theorem chunk_reconstruction_counterexample :
    chunkText 30 "aaaaaaaaaa          bbbbbbbbbb".toList 10 2 =
      some ["aaaaaaaaaa".toList, "aa".toList, "bbbbbb".toList, "bbbbbb".toList] ∧
    2 ≤ ["aaaaaaaaaa".toList, "aa".toList, "bbbbbb".toList, "bbbbbb".toList].length ∧
    (∀ c ∈ ["aaaaaaaaaa".toList, "aa".toList, "bbbbbb".toList, "bbbbbb".toList],
      ' ' ∉ c) ∧
    ' ' ∈ "aaaaaaaaaa          bbbbbbbbbb".toList := by
  refine ⟨by decide, by decide, by decide, by decide⟩

/-! ### Vector index, modelled from the spec

The index construction and search are delegated to the external FAISS
library (`FAISS.from_documents`, `similarity_search_with_score`), which is
not part of this repository, so the index semantics below are modelled from
the specification (spec sections 4.3 and 8). -/

/-- Modelled from the spec: a passage, the immutable unit of retrieval with
its metadata (spec section 3). -/
structure Passage where
  text : List Char
  source : List Char
  chunkIndex : Nat
  chunkCount : Nat
deriving DecidableEq

/-- An embedding vector; spec section 3 fixes only that it is an ordered
numeric sequence, modelled with integer components. -/
abbrev Vec := List Int

/-- Modelled from the spec: squared Euclidean (L2) distance over raw
vectors, the fixed metric of spec section 4.3. -/
def sqDist (u v : Vec) : Int :=
  ((u.zip v).map (fun q => (q.1 - q.2) * (q.1 - q.2))).sum

/-- Error kind of index construction (spec section 7). -/
inductive IndexErr where
  | emptyInput
deriving DecidableEq

/-- Modelled from the spec: `build` fails with `EmptyInput` on an empty
entry sequence, otherwise assigns dense ids 0..N-1 in input order
(spec section 4.3). -/
def buildIndex (entries : List (Vec × Passage)) :
    Except IndexErr (List (Nat × Vec × Passage)) :=
  if entries.isEmpty then .error .emptyInput else .ok entries.enum

/-- The comparison used to rank search results: by distance, ties broken by
ascending entry id. -/
def scoreLe (a b : Nat × Passage × Int) : Prop :=
  a.2.2 < b.2.2 ∨ (a.2.2 = b.2.2 ∧ a.1 ≤ b.1)

instance : DecidableRel scoreLe := fun a b => by
  unfold scoreLe; infer_instance

instance : IsTotal (Nat × Passage × Int) scoreLe :=
  ⟨fun a b => by unfold scoreLe; omega⟩

instance : IsTrans (Nat × Passage × Int) scoreLe :=
  ⟨fun a b c hab hbc => by unfold scoreLe at *; omega⟩

/-- Modelled from the spec: search scores every entry with the L2 distance
to the query, ranks by ascending distance with ties broken by ascending id,
and keeps the best `k` (spec sections 4.3 and 8); the id is retained here
for the tie-break statement. -/
def searchScored (idx : List (Nat × Vec × Passage)) (q : Vec) (k : Nat) :
    List (Nat × Passage × Int) :=
  (List.insertionSort scoreLe
    (idx.map (fun e => (e.1, e.2.2, sqDist q e.2.1)))).take k

/-- Modelled from the spec: `search(queryVector, k)` returns the ordered
`(Passage, distance)` sequence (spec section 4.3). -/
def searchIndex (idx : List (Nat × Vec × Passage)) (q : Vec) (k : Nat) :
    List (Passage × Int) :=
  (searchScored idx q k).map (fun r => (r.2.1, r.2.2))

/-- C2 (amended): on an index built from N entries, search returns exactly
`min(k, N)` results, ordered by non-decreasing distance with ties broken by
strictly ascending entry id (strict ascent of the distances themselves does
not hold in the presence of ties). -/
theorem search_min_k_ordered (entries : List (Vec × Passage))
    (idx : List (Nat × Vec × Passage)) (q : Vec) (k : Nat)
    (hb : buildIndex entries = .ok idx) :
    (searchIndex idx q k).length = min k entries.length ∧
    List.Chain' (fun a b =>
      a.2.2 < b.2.2 ∨ (a.2.2 = b.2.2 ∧ a.1 < b.1)) (searchScored idx q k) ∧
    searchIndex idx q k = (searchScored idx q k).map (fun r => (r.2.1, r.2.2)) := by
  have hidx : idx = entries.enum := by
    rw [buildIndex] at hb
    split at hb
    · exact absurd hb (by simp)
    · simpa using hb.symm
  set scored := idx.map (fun e => (e.1, e.2.2, sqDist q e.2.1)) with hscored
  refine ⟨?_, ?_, rfl⟩
  · rw [searchIndex, searchScored]
    simp only [List.length_map, List.length_take, List.length_insertionSort]
    rw [hidx]
    simp [List.enum_length]
  · -- sortedness of the comparison, made strict on ids via distinctness
    have hsorted : List.Pairwise scoreLe (List.insertionSort scoreLe scored) :=
      List.sorted_insertionSort scoreLe scored
    have htake : List.Pairwise scoreLe (searchScored idx q k) :=
      hsorted.sublist (List.take_sublist _ _)
    have hids : (scored.map Prod.fst).Nodup := by
      have : scored.map Prod.fst = idx.map Prod.fst := by
        rw [hscored, List.map_map]
        rfl
      rw [this, hidx, List.enum_map_fst]
      exact List.nodup_range _
    have hids2 : ((List.insertionSort scoreLe scored).map Prod.fst).Nodup :=
      (((List.perm_insertionSort scoreLe scored).map Prod.fst).nodup_iff).mpr hids
    have hids3 : ((searchScored idx q k).map Prod.fst).Nodup :=
      hids2.sublist ((List.take_sublist _ _).map Prod.fst)
    have hne : List.Pairwise (fun a b : Nat × Passage × Int => a.1 ≠ b.1)
        (searchScored idx q k) := List.pairwise_map.mp hids3
    exact ((htake.and hne).imp (fun h => by
      obtain ⟨hle, hne⟩ := h
      unfold scoreLe at hle
      rcases hle with h | ⟨h1, h2⟩
      · exact Or.inl h
      · exact Or.inr ⟨h1, lt_of_le_of_ne h2 hne⟩)).chain'

/-- C2 witness: a concrete index with two distinct entries and a tie in
distance; the search returns both, ordered with the tie broken by id. -/
theorem search_min_k_ordered_witness :
    (searchIndex [(0, [1, 0], ⟨"alpha".toList, "a.txt".toList, 0, 2⟩),
        (1, [1, 0], ⟨"beta".toList, "a.txt".toList, 1, 2⟩)] [1, 0] 5).length =
      min 5 [((([1, 0] : Vec), (⟨"alpha".toList, "a.txt".toList, 0, 2⟩ : Passage))),
        ([1, 0], ⟨"beta".toList, "a.txt".toList, 1, 2⟩)].length ∧
    List.Chain' (fun a b =>
      a.2.2 < b.2.2 ∨ (a.2.2 = b.2.2 ∧ a.1 < b.1))
      (searchScored [(0, [1, 0], ⟨"alpha".toList, "a.txt".toList, 0, 2⟩),
        (1, [1, 0], ⟨"beta".toList, "a.txt".toList, 1, 2⟩)] [1, 0] 5) := by
  have h := search_min_k_ordered
    [([1, 0], ⟨"alpha".toList, "a.txt".toList, 0, 2⟩),
      ([1, 0], ⟨"beta".toList, "a.txt".toList, 1, 2⟩)]
    [(0, [1, 0], ⟨"alpha".toList, "a.txt".toList, 0, 2⟩),
      (1, [1, 0], ⟨"beta".toList, "a.txt".toList, 1, 2⟩)]
    [1, 0] 5 (by rfl)
  exact ⟨h.1, h.2.1⟩

/-- C2 counterexample to "strictly ascending by distance": two entries with
identical vectors give equal distances, so the returned sequence is not
strictly ascending in distance (both results have distance 0). -/
theorem search_strict_ascending_counterexample :
    searchIndex [(0, [1, 0], ⟨"alpha".toList, "a.txt".toList, 0, 2⟩),
        (1, [1, 0], ⟨"beta".toList, "a.txt".toList, 1, 2⟩)] [1, 0] 2 =
      [(⟨"alpha".toList, "a.txt".toList, 0, 2⟩, 0),
        (⟨"beta".toList, "a.txt".toList, 1, 2⟩, 0)] ∧
    ¬ List.Chain' (fun a b : Passage × Int => a.2 < b.2)
      [((⟨"alpha".toList, "a.txt".toList, 0, 2⟩ : Passage), (0 : Int)),
        (⟨"beta".toList, "a.txt".toList, 1, 2⟩, 0)] := by
  refine ⟨by decide, fun h => absurd (List.chain'_cons.mp h).1 (lt_irrefl 0)⟩

/-! ### Orchestrator: router state, upload, query, clear

This models qa_router.py together with the state-relevant behavior of
`EmbeddingService.create_vector_store`.  External effects (file parsing,
the embedding backend) enter as explicit outcome fields of the input. -/

/-- `DocumentChunk` of embedding_service.py: parsed content plus its source
metadata (the fields no claim depends on - file type, size, timestamp - are
carried by the router record instead). -/
structure DocumentChunk where
  content : List Char
  source : List Char
deriving DecidableEq

/-- One entry of the vector store: a chunk with the metadata attached at
lines 87-95 of embedding_service.py (`chunk_id`, `total_chunks`, source).
The embedding vector itself is owned by the external FAISS index and no
claim about the orchestrator depends on it. -/
structure IndexedDoc where
  content : List Char
  source : List Char
  chunkId : Nat
  totalChunks : Nat
deriving DecidableEq

/-- `chunk_text` at its default arguments `chunk_size=1000, overlap=200`, as
called by `create_vector_store` (line 85) and the router (line 96).  With
these defaults every iteration advances the start by at least 701
characters, so fuel `length + 1` always suffices and the `getD` fallback is
dead code (`docChunks_spec`). -/
def docChunks (content : List Char) : List (List Char) :=
  (chunkText (content.length + 1) content 1000 200).getD []

theorem auxChunk_default_some (t : List Char) :
    ∀ (n : Nat) (s : Int), (t.length : Int) - s ≤ 701 * n →
      ∃ ws, auxChunk t 1000 200 n s = some ws := by
  intro n
  induction n with
  | zero =>
    intro s h
    rw [auxChunk, if_pos (by omega)]
    exact ⟨[], rfl⟩
  | succ m ih =>
    intro s h
    by_cases hs : (t.length : Int) ≤ s
    · rw [auxChunk, if_pos hs]
      exact ⟨[], rfl⟩
    · have hw : scanWidth 1000 = 100 := by decide
      have hge := endFor_ge t 1000 s
      rw [hw] at hge
      have hnext : (t.length : Int) - (endFor t 1000 s - (200 : Nat)) ≤ 701 * m := by
        have : ((99 : Nat) : Int) = 99 := by decide
        omega
      obtain ⟨ws, hws⟩ := ih _ hnext
      rw [auxChunk, if_neg hs, hws]
      exact ⟨_, rfl⟩

/-- The fuel `length + 1` given to `chunkText` in `docChunks` always
suffices, so `docChunks` is the value of the terminating Python call. -/
theorem docChunks_spec (content : List Char) :
    chunkText (content.length + 1) content 1000 200 = some (docChunks content) := by
  by_cases h : content.length ≤ 1000
  · rw [docChunks, chunkText, if_pos h]
    rfl
  · obtain ⟨ws, hws⟩ := auxChunk_default_some content (content.length + 1) 0 (by omega)
    rw [docChunks, chunkText, if_neg h, hws]
    rfl

/-- Error kinds of `create_vector_store` as seen by the router: the
`ValueError("No documents provided")` guard, and failures of the external
embedding backend, which raise before `self.vector_store` is assigned. -/
inductive BuildErr where
  | emptyInput
  | providerUnavailable
deriving DecidableEq

/-- The entries `create_vector_store` builds from a document list
(lines 81-95): each document's content is chunked with the default
parameters and each chunk is tagged with its index, the total chunk count
and the document metadata, in document order. -/
def buildEntries (docs : List DocumentChunk) : List IndexedDoc :=
  docs.flatMap (fun d =>
    (docChunks d.content).enum.map (fun q =>
      ⟨q.2, d.source, q.1, (docChunks d.content).length⟩))

/-- `EmbeddingService.create_vector_store` (lines 76-128) acting on the
stored index.  `embedOk` is the outcome of the external embedding backend;
when it fails, the Python code raises before the assignment to
`self.vector_store`, leaving the store unchanged.  On success the store is
replaced by exactly the new entries. -/
def createVectorStore (store : Option (List IndexedDoc)) (embedOk : Bool)
    (docs : List DocumentChunk) :
    Except BuildErr (List IndexedDoc) × Option (List IndexedDoc) :=
  if docs.isEmpty then (.error .emptyInput, store)
  else if embedOk then (.ok (buildEntries docs), some (buildEntries docs))
  else (.error .providerUnavailable, store)

/-- Per-upload bookkeeping appended to `uploaded_documents`
(qa_router.py lines 99-105). -/
structure DocRecord where
  filename : List Char
  chunks : Nat
  contentLength : Nat
  size : Nat
deriving DecidableEq

/-- The mutable service state: the router's `uploaded_documents` list
(line 32) and the embedding service's `vector_store` (line 37 of
embedding_service.py). -/
structure SvcState where
  uploadedDocuments : List DocRecord
  vectorStore : Option (List IndexedDoc)
deriving DecidableEq

/-- The state at service start: no records, no store. -/
def initState : SvcState := ⟨[], none⟩

/-- Distinguishable failure kinds of `upload_document`
(qa_router.py lines 41-122). -/
inductive UploadErr where
  | noFilename
  | unsupportedType
  | parseFailure
  | emptyDocument
  | buildFailure
deriving DecidableEq

instance {ε α : Type} [DecidableEq ε] [DecidableEq α] : DecidableEq (Except ε α)
  | .ok a, .ok b =>
    decidable_of_iff (a = b) ⟨fun h => h ▸ rfl, fun h => by cases h; rfl⟩
  | .ok _, .error _ => isFalse (fun h => by cases h)
  | .error _, .ok _ => isFalse (fun h => by cases h)
  | .error e, .error f =>
    decidable_of_iff (e = f) ⟨fun h => h ▸ rfl, fun h => by cases h; rfl⟩

/-- The input of one upload call, with the outcomes of the external
collaborators (the file parser and the embedding backend) made explicit. -/
structure UploadIn where
  filename : List Char
  size : Nat
  parsed : Except Unit (List Char)
  embedOk : Bool
deriving DecidableEq

/-- ASCII lower-casing, as `str.lower()` acts on extension characters. -/
def asciiLower (c : Char) : Char :=
  if 'A' ≤ c ∧ c ≤ 'Z' then Char.ofNat (c.toNat + 32) else c

/-- The index of the last dot of a filename, if any. -/
def lastDotIdx (fn : List Char) : Option Nat :=
  ((fn.enum.filter (fun q => q.2 = '.')).map Prod.fst).getLast?

/-- The extension part of `os.path.splitext` for a plain filename: the
suffix from the last dot, unless every character before that dot is a dot
(CPython treats such names, e.g. ".txt", as having no extension). -/
def splitextExt (fn : List Char) : List Char :=
  match lastDotIdx fn with
  | none => []
  | some d => if (fn.take d).all (fun c => c = '.') then [] else fn.drop d

/-- The supported extensions of qa_router.py line 47. -/
def supportedExts : List (List Char) :=
  [".pdf".toList, ".docx".toList, ".txt".toList]

/-- The success payload of an upload (`UploadResponse`, lines 107-112). -/
structure UploadResp where
  filename : List Char
  chunksCreated : Nat
deriving DecidableEq

/-- `upload_document` (qa_router.py lines 34-122): validate the filename and
extension, parse, reject blank documents, rebuild the vector store from the
new document's chunk alone (both branches of lines 81-93 pass only
`[document_chunk]`), then append the bookkeeping record.  Every failure
leaves the state exactly as it was. -/
def uploadFn (st : SvcState) (inp : UploadIn) :
    Except UploadErr UploadResp × SvcState :=
  if inp.filename = [] then (.error .noFilename, st)
  else if ((splitextExt inp.filename).map asciiLower) ∉ supportedExts then
    (.error .unsupportedType, st)
  else
    match inp.parsed with
    | .error _ => (.error .parseFailure, st)
    | .ok parsed =>
      if pyStrip parsed = [] then (.error .emptyDocument, st)
      else
        match createVectorStore st.vectorStore inp.embedOk
            [⟨parsed, inp.filename⟩] with
        | (.error _, store') => (.error .buildFailure, ⟨st.uploadedDocuments, store'⟩)
        | (.ok _, store') =>
          (.ok ⟨inp.filename, (docChunks parsed).length⟩,
            ⟨st.uploadedDocuments ++
              [⟨inp.filename, (docChunks parsed).length, parsed.length, inp.size⟩],
              store'⟩)

/-- Error kinds of `query_documents` (lines 124-167): the no-documents guard
and failures of the external embedding/search backends. -/
inductive QueryErr where
  | noIndex
  | provider
deriving DecidableEq

/-- The input of one query call; `embedOk` is the outcome of the external
embedding/search backend.  The retrieved payload carries the stored entries
(context assembly is not modelled: no claim depends on it). -/
structure QueryIn where
  k : Nat
  embedOk : Bool
deriving DecidableEq

/-- `query_documents` (qa_router.py lines 124-167): fails with the
no-documents error exactly when `vector_store is None` (lines 130-135);
otherwise the query runs against the current store (and can only fail for
external reasons, surfaced as a 500).  The state is never mutated. -/
def queryFn (st : SvcState) (inp : QueryIn) :
    Except QueryErr (List IndexedDoc) :=
  match st.vectorStore with
  | none => .error .noIndex
  | some entries => if inp.embedOk then .ok entries else .error .provider

/-- `clear_documents` (qa_router.py lines 179-188): discard every record and
reset the store. -/
def clearFn (_st : SvcState) : SvcState := ⟨[], none⟩

/-- One externally observable operation against the service. -/
inductive Op where
  | upload : UploadIn → Op
  | query : QueryIn → Op
  | clear : Op
deriving DecidableEq

/-- State transition of one operation (queries never mutate the state). -/
def stepOp (st : SvcState) : Op → SvcState
  | .upload i => (uploadFn st i).2
  | .query _ => st
  | .clear => clearFn st

/-- Run a sequence of operations. -/
def runOps (st : SvcState) (ops : List Op) : SvcState := ops.foldl stepOp st

/-- Whether an upload succeeds; success depends only on the input, never on
the current state (both store branches of lines 81-93 make the same call). -/
def uploadOk (inp : UploadIn) : Bool :=
  if inp.filename = [] then false
  else if ((splitextExt inp.filename).map asciiLower) ∉ supportedExts then false
  else
    match inp.parsed with
    | .error _ => false
    | .ok parsed => if pyStrip parsed = [] then false else inp.embedOk

theorem createVectorStore_error_store {store : Option (List IndexedDoc)}
    {embedOk : Bool} {docs : List DocumentChunk} {e : BuildErr}
    {store' : Option (List IndexedDoc)}
    (h : createVectorStore store embedOk docs = (.error e, store')) :
    store' = store := by
  rw [createVectorStore] at h
  split at h
  · exact (congrArg Prod.snd h).symm
  · split at h
    · exact absurd (congrArg Prod.fst h) (by simp)
    · exact (congrArg Prod.snd h).symm

/-- Failures of `upload_document` leave the state untouched. -/
theorem uploadFn_error_state (st : SvcState) (inp : UploadIn) (e : UploadErr)
    (h : (uploadFn st inp).1 = .error e) : (uploadFn st inp).2 = st := by
  rw [uploadFn] at h ⊢
  by_cases h1 : inp.filename = []
  · rw [if_pos h1]
  · rw [if_neg h1] at h ⊢
    by_cases h2 : ((splitextExt inp.filename).map asciiLower) ∉ supportedExts
    · rw [if_pos h2]
    · rw [if_neg h2] at h ⊢
      rcases hp : inp.parsed with u | parsed
      · rfl
      · rw [hp] at h
        dsimp only at h ⊢
        by_cases h3 : pyStrip parsed = []
        · rw [if_pos h3]
        · rw [if_neg h3] at h ⊢
          rcases hcv : createVectorStore st.vectorStore inp.embedOk
            [⟨parsed, inp.filename⟩] with ⟨r, store'⟩
          rcases r with e' | v
          · have hst : store' = st.vectorStore :=
              createVectorStore_error_store hcv
            dsimp only
            rw [hst]
          · rw [hcv] at h
            exact absurd h (by simp)

/-- An upload that the input condition rejects always fails. -/
theorem uploadFn_not_ok (st : SvcState) (inp : UploadIn)
    (h : uploadOk inp = false) : ∃ e, (uploadFn st inp).1 = .error e := by
  rw [uploadOk] at h
  rw [uploadFn]
  by_cases h1 : inp.filename = []
  · rw [if_pos h1]
    exact ⟨.noFilename, rfl⟩
  · rw [if_neg h1] at h ⊢
    by_cases h2 : ((splitextExt inp.filename).map asciiLower) ∉ supportedExts
    · rw [if_pos h2]
      exact ⟨.unsupportedType, rfl⟩
    · rw [if_neg h2] at h ⊢
      rcases hp : inp.parsed with u | parsed
      · exact ⟨.parseFailure, rfl⟩
      · rw [hp] at h
        dsimp only at h ⊢
        by_cases h3 : pyStrip parsed = []
        · rw [if_pos h3]
          exact ⟨.emptyDocument, rfl⟩
        · rw [if_neg h3] at h ⊢
          rcases hcv : createVectorStore st.vectorStore inp.embedOk
            [⟨parsed, inp.filename⟩] with ⟨r, store'⟩
          rcases r with e' | v
          · exact ⟨.buildFailure, rfl⟩
          · exfalso
            rw [createVectorStore, if_neg (by simp), h] at hcv
            exact absurd (congrArg Prod.fst hcv) (by simp)

theorem createVectorStore_ok_store {store : Option (List IndexedDoc)}
    {embedOk : Bool} {docs : List DocumentChunk} {v : List IndexedDoc}
    {store' : Option (List IndexedDoc)}
    (h : createVectorStore store embedOk docs = (.ok v, store')) :
    store' = some (buildEntries docs) := by
  rw [createVectorStore] at h
  split at h
  · exact absurd (congrArg Prod.fst h) (by simp)
  · split at h
    · exact (congrArg Prod.snd h).symm
    · exact absurd (congrArg Prod.fst h) (by simp)

/-- C7: an upload either fails with both the document records and the vector
store exactly as they were before the call, or fully succeeds, appending
exactly one record and replacing the store. -/
theorem upload_atomicity :
    (∀ (st : SvcState) (inp : UploadIn) (e : UploadErr),
      (uploadFn st inp).1 = .error e → (uploadFn st inp).2 = st) ∧
    (∀ (st : SvcState) (inp : UploadIn) (r : UploadResp),
      (uploadFn st inp).1 = .ok r →
      ∃ (d : DocRecord) (entries : List IndexedDoc),
        (uploadFn st inp).2 = ⟨st.uploadedDocuments ++ [d], some entries⟩) := by
  refine ⟨uploadFn_error_state, ?_⟩
  intro st inp r h
  rw [uploadFn] at h ⊢
  by_cases h1 : inp.filename = []
  · rw [if_pos h1] at h
    exact absurd h (by simp)
  · rw [if_neg h1] at h ⊢
    by_cases h2 : ((splitextExt inp.filename).map asciiLower) ∉ supportedExts
    · rw [if_pos h2] at h
      exact absurd h (by simp)
    · rw [if_neg h2] at h ⊢
      rcases hp : inp.parsed with u | parsed
      · rw [hp] at h
        exact absurd h (by simp)
      · rw [hp] at h
        dsimp only at h ⊢
        by_cases h3 : pyStrip parsed = []
        · rw [if_pos h3] at h
          exact absurd h (by simp)
        · rw [if_neg h3] at h ⊢
          rcases hcv : createVectorStore st.vectorStore inp.embedOk
            [⟨parsed, inp.filename⟩] with ⟨rr, store'⟩
          rcases rr with e' | v
          · rw [hcv] at h
            exact absurd h (by simp)
          · have hst : store' = some (buildEntries [⟨parsed, inp.filename⟩]) :=
              createVectorStore_ok_store hcv
            dsimp only
            exact ⟨_, _, by rw [hst]⟩

/-- C7 witness: a concrete failing upload (unsupported extension) returns an
error and leaves a concrete state untouched. -/
theorem upload_atomicity_witness :
    (uploadFn initState ⟨"a.exe".toList, 3, .ok "hi".toList, true⟩).1 =
      .error .unsupportedType ∧
    (uploadFn initState ⟨"a.exe".toList, 3, .ok "hi".toList, true⟩).2 =
      initState :=
  ⟨by decide,
    upload_atomicity.1 initState ⟨"a.exe".toList, 3, .ok "hi".toList, true⟩
      .unsupportedType (by decide)⟩

/-- C8: building the vector store from an empty document sequence always
fails with the empty-input error kind, whatever the current state of the
service, and leaves the store unchanged. -/
theorem build_empty_always_fails :
    ∀ (store : Option (List IndexedDoc)) (embedOk : Bool),
      createVectorStore store embedOk [] = (.error .emptyInput, store) := by
  intro store embedOk
  rfl

/-- Whether an upload succeeds depends only on its input (the store-is-None
branch and the store-exists branch of lines 81-93 make the same call), so a
trace without a successful upload can never populate the store. -/
theorem runOps_no_upload_store_none :
    ∀ (ops : List Op),
      (∀ i, Op.upload i ∈ ops → uploadOk i = false) →
      ∀ st : SvcState, st.vectorStore = none →
        (runOps st ops).vectorStore = none := by
  intro ops
  induction ops with
  | nil => intro _ st h; exact h
  | cons op rest ih =>
    intro hops st h
    have hrun : runOps st (op :: rest) = runOps (stepOp st op) rest := rfl
    rw [hrun]
    rcases op with i | q | _
    · have hfail : uploadOk i = false := hops i (List.mem_cons_self _ _)
      obtain ⟨e, he⟩ := uploadFn_not_ok st i hfail
      have hstable : (uploadFn st i).2 = st := uploadFn_error_state st i e he
      have : stepOp st (Op.upload i) = st := hstable
      rw [this]
      exact ih (fun j hj => hops j (List.mem_cons_of_mem _ hj)) st h
    · exact ih (fun j hj => hops j (List.mem_cons_of_mem _ hj)) st h
    · exact ih (fun j hj => hops j (List.mem_cons_of_mem _ hj)) ⟨[], none⟩ rfl

/-- C9: `clear` discards every document record and the index; a query fails
with the no-index error kind exactly when no store exists; in the initial
state (before any successful build) every query fails this way; and after a
`clear`, queries keep failing with it across any sequence of operations
containing no successful upload. -/
theorem clear_and_query_no_index :
    (∀ st : SvcState, clearFn st = ⟨[], none⟩) ∧
    (∀ (st : SvcState) (inp : QueryIn),
      queryFn st inp = .error .noIndex ↔ st.vectorStore = none) ∧
    (∀ inp : QueryIn, queryFn initState inp = .error .noIndex) ∧
    (∀ (st : SvcState) (ops : List Op),
      (∀ i, Op.upload i ∈ ops → uploadOk i = false) →
      ∀ inp : QueryIn,
        queryFn (runOps (clearFn st) ops) inp = .error .noIndex) := by
  have hquery : ∀ (st : SvcState) (inp : QueryIn),
      queryFn st inp = .error .noIndex ↔ st.vectorStore = none := by
    intro st inp
    constructor
    · intro h
      rcases hs : st.vectorStore with _ | entries
      · rfl
      · rw [queryFn, hs] at h
        rcases he : inp.embedOk with _ | _
        · rw [he] at h
          exact absurd h (by simp)
        · rw [he] at h
          exact absurd h (by simp)
    · intro h
      rw [queryFn, h]
  refine ⟨fun _ => rfl, hquery, fun inp => rfl, ?_⟩
  intro st ops hops inp
  have hnone : (runOps (clearFn st) ops).vectorStore = none :=
    runOps_no_upload_store_none ops hops (clearFn st) rfl
  exact (hquery _ inp).mpr hnone

/-- C9 witness: clearing a concrete non-empty state and then running one
(failing) query leaves every subsequent query failing with the no-index
error. -/
theorem clear_and_query_no_index_witness :
    queryFn (runOps (clearFn ⟨[⟨"a.txt".toList, 1, 5, 5⟩], some []⟩)
      [Op.query ⟨3, true⟩]) ⟨3, true⟩ = .error .noIndex :=
  clear_and_query_no_index.2.2.2 ⟨[⟨"a.txt".toList, 1, 5, 5⟩], some []⟩
    [Op.query ⟨3, true⟩]
    (fun _ hi => nomatch List.mem_singleton.mp hi) ⟨3, true⟩

/-- C1 evaluation at the failing input: two successful uploads, the second
document's upload replacing the vector store with entries built from the
second document alone.  Both documents remain listed in the records while
only the second is searchable: the code's own comment says "Add to existing
vector store", but `all_doc_chunks = [document_chunk]` drops the first
document. -/
theorem second_upload_discards_first :
    (uploadFn initState ⟨"a.txt".toList, 56,
      .ok "Artificial intelligence is a field of computer science.".toList,
      true⟩).1 = .ok ⟨"a.txt".toList, 1⟩ ∧
    (uploadFn (uploadFn initState ⟨"a.txt".toList, 56,
      .ok "Artificial intelligence is a field of computer science.".toList,
      true⟩).2
      ⟨"b.txt".toList, 19, .ok "Bananas are yellow.".toList, true⟩).1 =
      .ok ⟨"b.txt".toList, 1⟩ ∧
    ((uploadFn (uploadFn initState ⟨"a.txt".toList, 56,
      .ok "Artificial intelligence is a field of computer science.".toList,
      true⟩).2
      ⟨"b.txt".toList, 19, .ok "Bananas are yellow.".toList,
        true⟩).2).uploadedDocuments.length = 2 ∧
    ((uploadFn (uploadFn initState ⟨"a.txt".toList, 56,
      .ok "Artificial intelligence is a field of computer science.".toList,
      true⟩).2
      ⟨"b.txt".toList, 19, .ok "Bananas are yellow.".toList,
        true⟩).2).vectorStore =
      some [⟨"Bananas are yellow.".toList, "b.txt".toList, 0, 1⟩] := by
  refine ⟨by decide, by decide, by decide, by decide⟩

end SmartDocQA
